import Mathlib

/-!
Shallow embedding of the tracker state engine of `jira_tracker`
(`src/jira_tracker/src/app_data.rs`, the richer variant with adjustment
lists and an insertion-ordered `IndexMap`).

Modelling conventions:
* `Duration` is a count of nanoseconds (`Nat`); Rust's `Duration` is a
  non-negative nanosecond quantity.  `Duration::from_secs(d.as_secs())`
  becomes truncation to a whole multiple of `10^9` nanoseconds.
* The two clocks (`SystemTime::now` / `Local::now`) are modelled by one
  explicit `now : Nat` parameter threaded into every operation.
  `start_time.elapsed().unwrap_or_default()` is `now - start_time` on `Nat`,
  whose truncated subtraction returns `0` when the clock ran backwards,
  exactly as `unwrap_or_default` does.
* The `IndexMap<String, PausedTracker>` is an insertion-ordered association
  list `List (String × PausedTracker)`; `shift_remove` removes the entry in
  place preserving order, `IndexMap::remove` (alias of `swap_remove`, used
  only in `remove_all`) swaps the last entry into the removed slot.
* A Rust panic (an `unwrap` on `None`) is modelled by returning `none`;
  a normal return (including the four domain errors) is `some _`.
* Rust's `\w`/`\d` character classes are modelled on the ASCII range
  (alphanumerics plus underscore, and decimal digits).
-/

/-- Duration in nanoseconds, mirroring Rust `std::time::Duration`. -/
abbrev Duration := Nat

/-- Nanoseconds per second; used to model `Duration::from_secs(d.as_secs())`. -/
def nanosPerSec : Nat := 1000000000

/-- Truncation of a duration to whole seconds: the model of
`Duration::from_secs(d.as_secs())`. -/
def secTrunc (d : Duration) : Duration := d / nanosPerSec * nanosPerSec

/-- Error taxonomy of `TrackerError` in `app_data.rs`. -/
inductive TrackerError where
  | KeyFormatError
  | OccupiedError
  | NotFoundError
  | DurationAdjustmentError
deriving DecidableEq, Repr

/-- Embedding of `PausedTracker`: one stored tracker record. -/
structure PausedTracker where
  id : String
  description : Option String
  duration : Duration
  positive_adjustments : List Duration
  negative_adjustments : List Duration
  start_time : Nat
deriving DecidableEq, Repr

/-- Embedding of `PausedTracker::new(id)`; `start_time = Local::now()` becomes
the explicit `now`. -/
def PausedTracker.new (id : String) (now : Nat) : PausedTracker :=
  { id := id
    description := none
    duration := 0
    positive_adjustments := []
    negative_adjustments := []
    start_time := now }

/-- Embedding of `RunningTracker`: the at-most-one running marker. -/
structure RunningTracker where
  key : String
  start_time : Nat
deriving DecidableEq, Repr

/-- Embedding of `InnerAppData`: the optional running marker plus the
insertion-ordered tracker map. -/
structure InnerAppData where
  running : Option RunningTracker
  trackers : List (String × PausedTracker)
deriving DecidableEq, Repr

/-- Embedding of the derived view `TrackerInformation`. -/
structure TrackerInformation where
  key : String
  id : String
  description : Option String
  duration : Duration
  running : Bool
  start_time : Nat
deriving DecidableEq, Repr

/-! ### Association-list operations modelling `IndexMap` -/

/-- Model of `IndexMap::get`: value of the first entry with the given key. -/
def getKey? (l : List (String × PausedTracker)) (k : String) : Option PausedTracker :=
  match l with
  | [] => none
  | (k', v) :: rest => if k' = k then some v else getKey? rest k

/-- Model of `IndexMap::contains_key`. -/
def containsKey (l : List (String × PausedTracker)) (k : String) : Bool :=
  match l with
  | [] => false
  | (k', _) :: rest => k' = k || containsKey rest k

/-- Model of mutating through `IndexMap::get_mut`: rewrite the first entry
with the given key in place. -/
def updateKey (l : List (String × PausedTracker)) (k : String)
    (f : PausedTracker → PausedTracker) : List (String × PausedTracker) :=
  match l with
  | [] => []
  | (k', v) :: rest =>
    if k' = k then (k', f v) :: rest else (k', v) :: updateKey rest k f

/-- Model of `IndexMap::shift_remove`: remove the first entry with the given
key, shifting the remaining entries so their order is preserved. -/
def shiftRemoveKey (l : List (String × PausedTracker)) (k : String) :
    Option (PausedTracker × List (String × PausedTracker)) :=
  match l with
  | [] => none
  | (k', v) :: rest =>
    if k' = k then some (v, rest)
    else (shiftRemoveKey rest k).map (fun p => (p.1, (k', v) :: p.2))

/-- Model of `IndexMap`'s swap removal at an index: the last entry is moved
into the vacated slot. -/
def swapRemoveIdx (l : List (String × PausedTracker)) (i : Nat) :
    List (String × PausedTracker) :=
  match l.getLast? with
  | none => []
  | some z => (l.set i z).dropLast

/-- Model of `IndexMap::remove` (an alias of `swap_remove`): remove the entry
with the given key, moving the last entry into its slot. -/
def swapRemoveKey (l : List (String × PausedTracker)) (k : String) :
    Option (PausedTracker × List (String × PausedTracker)) :=
  match l.findIdx? (fun p => p.1 = k) with
  | none => none
  | some i => (l.get? i).map (fun p => (p.2, swapRemoveIdx l i))

/-! ### The key-format check, `Regex::new(r"\w+-\d+").is_match(key)` -/

/-- Word character of the regex class `\w`, modelled on the ASCII range. -/
def isWordChar (c : Char) : Bool := c.isAlphanum || c = '_'

/-- Whether the regex `\w+-\d+` matches starting at the head of the character
list: a non-empty run of word characters, then `-`, then at least one digit.
Since `-` is not a word character, `\w+` must consume the maximal word-char
run, so the backtracking semantics collapses to this check. -/
def matchesHere (l : List Char) : Bool :=
  let w := l.takeWhile isWordChar
  match l.drop w.length with
  | '-' :: d :: _ => !w.isEmpty && d.isDigit
  | _ => false

/-- Unanchored search for `\w+-\d+` over a character list, modelling
`Regex::is_match`. -/
def keyIsMatchList (l : List Char) : Bool :=
  match l with
  | [] => false
  | _ :: t => matchesHere l || keyIsMatchList t

/-- Model of `Regex::new(r"\w+-\d+").unwrap().is_match(key)`. -/
def keyIsMatch (key : String) : Bool := keyIsMatchList key.data

/-! ### The store operations of `InnerAppData` -/

namespace InnerAppData

/-- Embedding of `InnerAppData::new()`. -/
def new : InnerAppData := { running := none, trackers := [] }

/-- Model of `running.as_ref().filter(|r| r.key == key).is_some()`. -/
def runningMatches (running : Option RunningTracker) (key : String) : Bool :=
  match running with
  | some r => r.key = key
  | none => false

/-- Embedding of `InnerAppData::elapsed`. -/
def elapsed (s : InnerAppData) (key : String) (now : Nat) : Option Duration :=
  (getKey? s.trackers key).map (fun tracker =>
    let running_duration : Duration :=
      match s.running with
      | some r => if r.key = key then now - r.start_time else 0
      | none => 0
    let positive_adjustments_sum : Duration := tracker.positive_adjustments.sum
    let negative_adjustments_sum : Duration := tracker.negative_adjustments.sum
    let positive_duration_sum :=
      tracker.duration + running_duration + positive_adjustments_sum
    positive_duration_sum - negative_adjustments_sum)

/-- Embedding of `InnerAppData::elapsed_seconds`. -/
def elapsed_seconds (s : InnerAppData) (key : String) (now : Nat) : Option Duration :=
  (s.elapsed key now).map secTrunc

/-- Embedding of `InnerAppData::get_information`; the source unwraps the
tracker lookup, so a missing key is the panic value `none`. -/
def get_information (s : InnerAppData) (key : String) (now : Nat) :
    Option TrackerInformation :=
  match getKey? s.trackers key with
  | none => none
  | some tracker =>
    (s.elapsed_seconds key now).map (fun dur =>
      { key := key
        id := tracker.id
        description := tracker.description
        duration := dur
        running := runningMatches s.running key
        start_time := tracker.start_time })

/-- Embedding of `InnerAppData::current`. -/
def current (s : InnerAppData) (now : Nat) :
    Option (Except TrackerError TrackerInformation) :=
  match s.running with
  | none => some (.error .NotFoundError)
  | some running => (s.get_information running.key now).map .ok

/-- Embedding of `InnerAppData::get_tracker`. -/
def get_tracker (s : InnerAppData) (key : String) (now : Nat) :
    Option (Except TrackerError TrackerInformation) :=
  match getKey? s.trackers key with
  | none => some (.error .NotFoundError)
  | some _ => (s.get_information key now).map .ok

/-- Embedding of `InnerAppData::list_trackers`: one view per key, in the
map's insertion order. -/
def list_trackers (s : InnerAppData) (now : Nat) : Option (List TrackerInformation) :=
  s.trackers.mapM (fun p => s.get_information p.1 now)

/-- Embedding of `InnerAppData::set_description`; returns the result paired
with the post-state (the receiver of `&mut self`). -/
def set_description (s : InnerAppData) (key : String) (description : Option String)
    (now : Nat) : Option (Except TrackerError TrackerInformation × InnerAppData) :=
  let description := description.filter (fun d => !d.isEmpty)
  match getKey? s.trackers key with
  | none => some (.error .NotFoundError, s)
  | some _ =>
    let trackers' :=
      updateKey s.trackers key (fun t => { t with description := description })
    let s' := { s with trackers := trackers' }
    (s'.get_information key now).map (fun info => (.ok info, s'))

/-- Embedding of `InnerAppData::adjust_positive_duration`. -/
def adjust_positive_duration (s : InnerAppData) (key : String) (duration : Duration)
    (now : Nat) : Option (Except TrackerError TrackerInformation × InnerAppData) :=
  match getKey? s.trackers key with
  | none => some (.error .NotFoundError, s)
  | some _ =>
    let trackers' :=
      updateKey s.trackers key (fun t =>
        { t with positive_adjustments := t.positive_adjustments ++ [duration] })
    let s' := { s with trackers := trackers' }
    (s'.get_information key now).map (fun info => (.ok info, s'))

/-- Embedding of `InnerAppData::adjust_negative_duration`; the source unwraps
`get_mut` after the elapsed check, so that lookup failing is a panic. -/
def adjust_negative_duration (s : InnerAppData) (key : String) (duration : Duration)
    (now : Nat) : Option (Except TrackerError TrackerInformation × InnerAppData) :=
  match s.elapsed key now with
  | none => some (.error .NotFoundError, s)
  | some elapsed =>
    if duration > elapsed then some (.error .DurationAdjustmentError, s)
    else
      match getKey? s.trackers key with
      | none => none
      | some _ =>
        let trackers' :=
          updateKey s.trackers key (fun t =>
            { t with negative_adjustments := t.negative_adjustments ++ [duration] })
        let s' := { s with trackers := trackers' }
        (s'.get_information key now).map (fun info => (.ok info, s'))

/-- Embedding of `InnerAppData::pause`; the source unwraps the lookup of the
running key, so a dangling marker is a panic. -/
def pause (s : InnerAppData) (now : Nat) : Option InnerAppData :=
  match s.running with
  | none => some { s with running := none }
  | some running =>
    match getKey? s.trackers running.key with
    | none => none
    | some _ =>
      some { running := none
             trackers := updateKey s.trackers running.key (fun t =>
               { t with duration := t.duration + (now - running.start_time) }) }

/-- Embedding of `InnerAppData::start`. -/
def start (s : InnerAppData) (key : String) (now : Nat) :
    Option (Except TrackerError TrackerInformation × InnerAppData) :=
  if containsKey s.trackers key then
    match s.pause now with
    | none => none
    | some s1 =>
      let s2 := { s1 with running := some { key := key, start_time := now } }
      (s2.get_information key now).map (fun info => (.ok info, s2))
  else some (.error .NotFoundError, s)

/-- Embedding of `InnerAppData::create_tracker`; the fresh key is appended,
as `IndexMap::insert` does for a key that is not present. -/
def create_tracker (s : InnerAppData) (key id : String) (now : Nat) :
    Option (Except TrackerError TrackerInformation × InnerAppData) :=
  if !keyIsMatch key then some (.error .KeyFormatError, s)
  else if containsKey s.trackers key then some (.error .OccupiedError, s)
  else
    let s' := { s with trackers := s.trackers ++ [(key, PausedTracker.new id now)] }
    (s'.get_information key now).map (fun info => (.ok info, s'))

/-- Embedding of `InnerAppData::remove`. -/
def remove (s : InnerAppData) (key : String) (now : Nat) :
    Option (Except TrackerError PausedTracker × InnerAppData) :=
  let paused :=
    if runningMatches s.running key then s.pause now else some s
  match paused with
  | none => none
  | some s1 =>
    match shiftRemoveKey s1.trackers key with
    | none => some (.error .NotFoundError, s1)
    | some (t, rest) => some (.ok t, { s1 with trackers := rest })

/-- One pass of `remove_all`'s loop: remove each collected key in turn with
`IndexMap::remove` (swap removal), unwrapping each result. -/
def removeEach (ks : List String) (l : List (String × PausedTracker)) :
    Option (List PausedTracker × List (String × PausedTracker)) :=
  match ks with
  | [] => some ([], l)
  | k :: ks' =>
    match swapRemoveKey l k with
    | none => none
    | some (v, l') =>
      (removeEach ks' l').map (fun p => (v :: p.1, p.2))

/-- Embedding of `InnerAppData::remove_all`. -/
def remove_all (s : InnerAppData) (now : Nat) :
    Option (List PausedTracker × InnerAppData) :=
  match s.pause now with
  | none => none
  | some s1 =>
    let ks := s1.trackers.map (fun p => p.1)
    match removeEach ks s1.trackers with
    | none => none
    | some (vs, rest) => some (vs, { s1 with trackers := rest })

/-- Embedding of `InnerAppData::sum`. -/
def sum (s : InnerAppData) (now : Nat) : Option Duration :=
  (s.list_trackers now).map (fun l => (l.map (fun t => t.duration)).sum)

end InnerAppData

/-! ### Public operations, reachability, and the store invariants -/

/-- One public mutating operation of the store. -/
inductive Op where
  | create (key id : String)
  | start (key : String)
  | pause
  | set_description (key : String) (d : Option String)
  | adjust_positive (key : String) (d : Duration)
  | adjust_negative (key : String) (d : Duration)
  | remove (key : String)
  | remove_all

/-- State transition of one public mutating operation at clock value `now`;
`none` is a panic. -/
def applyOp (op : Op) (s : InnerAppData) (now : Nat) : Option InnerAppData :=
  match op with
  | .create key id => (s.create_tracker key id now).map (fun p => p.2)
  | .start key => (s.start key now).map (fun p => p.2)
  | .pause => s.pause now
  | .set_description key d => (s.set_description key d now).map (fun p => p.2)
  | .adjust_positive key d => (s.adjust_positive_duration key d now).map (fun p => p.2)
  | .adjust_negative key d => (s.adjust_negative_duration key d now).map (fun p => p.2)
  | .remove key => (s.remove key now).map (fun p => p.2)
  | .remove_all => (s.remove_all now).map (fun p => p.2)

/-- The running-marker invariant: if the marker is present, its key exists in
the tracker mapping. -/
def markerOk (s : InnerAppData) : Bool :=
  match s.running with
  | none => true
  | some r => containsKey s.trackers r.key

/-- Key uniqueness, the representation invariant of `IndexMap` in the
association-list model. -/
def keysNodup (s : InnerAppData) : Prop :=
  (s.trackers.map (fun p => p.1)).Nodup

/-- States reachable from the empty store by successful public operations. -/
inductive Reachable : InnerAppData → Prop where
  | init : Reachable InnerAppData.new
  | step : ∀ s op now s', Reachable s → applyOp op s now = some s' → Reachable s'

/-- Abbreviation for the spec's `running_elapsed`: zero unless the marker's
key equals the tracker's key, in which case it is now minus the marker's
start instant.  This is exactly the `running_duration` computation inlined in
`InnerAppData::elapsed`. -/
def runningElapsed (s : InnerAppData) (key : String) (now : Nat) : Duration :=
  match s.running with
  | some r => if r.key = key then now - r.start_time else 0
  | none => 0

/-! ### Helper lemmas about the association-list model -/

theorem getKey?_eq_none_iff (l : List (String × PausedTracker)) (k : String) :
    getKey? l k = none ↔ containsKey l k = false := by
  induction l with
  | nil => simp [getKey?, containsKey]
  | cons p rest ih =>
    obtain ⟨k', v⟩ := p
    by_cases h : k' = k <;> simp [getKey?, containsKey, h, ih]

theorem getKey?_isSome_iff (l : List (String × PausedTracker)) (k : String) :
    (getKey? l k).isSome = true ↔ containsKey l k = true := by
  rw [Option.isSome_iff_ne_none]
  rw [ne_eq, getKey?_eq_none_iff]
  simp

theorem containsKey_iff_mem (l : List (String × PausedTracker)) (k : String) :
    containsKey l k = true ↔ k ∈ l.map (fun p => p.1) := by
  induction l with
  | nil => simp [containsKey]
  | cons p rest ih =>
    obtain ⟨k', v⟩ := p
    by_cases h : k' = k
    · subst h
      simp [containsKey]
    · simp [containsKey, h, ih, Ne.symm h]

theorem containsKey_self_of_mem (l : List (String × PausedTracker))
    (p : String × PausedTracker) (h : p ∈ l) : containsKey l p.1 = true :=
  (containsKey_iff_mem l p.1).2 (List.mem_map_of_mem _ h)

theorem updateKey_keys (l : List (String × PausedTracker)) (k : String)
    (f : PausedTracker → PausedTracker) :
    (updateKey l k f).map (fun p => p.1) = l.map (fun p => p.1) := by
  induction l with
  | nil => rfl
  | cons p rest ih =>
    obtain ⟨k', v⟩ := p
    by_cases h : k' = k <;> simp [updateKey, h, ih]

theorem containsKey_congr_keys {l l' : List (String × PausedTracker)}
    (h : l.map (fun p => p.1) = l'.map (fun p => p.1)) (k : String) :
    containsKey l k = containsKey l' k := by
  rw [Bool.eq_iff_iff, containsKey_iff_mem, containsKey_iff_mem, h]

theorem getKey?_updateKey_self (l : List (String × PausedTracker)) (k : String)
    (f : PausedTracker → PausedTracker) :
    getKey? (updateKey l k f) k = (getKey? l k).map f := by
  induction l with
  | nil => rfl
  | cons p rest ih =>
    obtain ⟨k', v⟩ := p
    by_cases h : k' = k <;> simp [updateKey, getKey?, h, ih]

theorem getKey?_updateKey_ne (l : List (String × PausedTracker)) {k k' : String}
    (h : k' ≠ k) (f : PausedTracker → PausedTracker) :
    getKey? (updateKey l k f) k' = getKey? l k' := by
  induction l with
  | nil => rfl
  | cons p rest ih =>
    obtain ⟨k₀, v⟩ := p
    by_cases h0 : k₀ = k
    · have hne : ¬ k = k' := fun hh => h hh.symm
      simp [updateKey, getKey?, h0, hne]
    · by_cases h1 : k₀ = k' <;> simp [updateKey, getKey?, h0, h1, ih, h]

theorem getKey?_append_left {l₁ : List (String × PausedTracker)}
    (l₂ : List (String × PausedTracker)) {k : String} {v : PausedTracker}
    (h : getKey? l₁ k = some v) : getKey? (l₁ ++ l₂) k = some v := by
  induction l₁ with
  | nil => simp [getKey?] at h
  | cons p rest ih =>
    obtain ⟨k', w⟩ := p
    by_cases h0 : k' = k <;> simp_all [getKey?]

theorem getKey?_append_right {l₁ : List (String × PausedTracker)}
    (l₂ : List (String × PausedTracker)) {k : String}
    (h : getKey? l₁ k = none) : getKey? (l₁ ++ l₂) k = getKey? l₂ k := by
  induction l₁ with
  | nil => simp
  | cons p rest ih =>
    obtain ⟨k', w⟩ := p
    by_cases h0 : k' = k <;> simp_all [getKey?]

theorem containsKey_append (l₁ l₂ : List (String × PausedTracker)) (k : String) :
    containsKey (l₁ ++ l₂) k = (containsKey l₁ k || containsKey l₂ k) := by
  induction l₁ with
  | nil => simp [containsKey]
  | cons p rest ih =>
    obtain ⟨k', w⟩ := p
    by_cases h0 : k' = k <;> simp [containsKey, h0, ih]

theorem shiftRemoveKey_eq_none_iff (l : List (String × PausedTracker)) (k : String) :
    shiftRemoveKey l k = none ↔ containsKey l k = false := by
  induction l with
  | nil => simp [shiftRemoveKey, containsKey]
  | cons p rest ih =>
    obtain ⟨k', v⟩ := p
    by_cases h : k' = k <;> simp [shiftRemoveKey, containsKey, h, ih]

theorem shiftRemoveKey_fst {l : List (String × PausedTracker)} {k : String}
    {v : PausedTracker} {rest : List (String × PausedTracker)}
    (h : shiftRemoveKey l k = some (v, rest)) : getKey? l k = some v := by
  induction l generalizing rest with
  | nil => simp [shiftRemoveKey] at h
  | cons p t ih =>
    obtain ⟨k', w⟩ := p
    by_cases h0 : k' = k
    · simp [shiftRemoveKey, h0] at h
      simp [getKey?, h0, h.1]
    · simp only [shiftRemoveKey, h0, if_false, Option.map_eq_some'] at h
      obtain ⟨⟨v', rest'⟩, hq, heq⟩ := h
      have hv : v' = v := congrArg Prod.fst heq
      simp [getKey?, h0]
      subst hv
      exact ih hq

theorem shiftRemoveKey_keys {l : List (String × PausedTracker)} {k : String}
    {v : PausedTracker} {rest : List (String × PausedTracker)}
    (h : shiftRemoveKey l k = some (v, rest)) :
    rest.map (fun p => p.1) = (l.map (fun p => p.1)).erase k := by
  induction l generalizing rest with
  | nil => simp [shiftRemoveKey] at h
  | cons p t ih =>
    obtain ⟨k', w⟩ := p
    by_cases h0 : k' = k
    · simp [shiftRemoveKey, h0] at h
      simp [h0, ← h.2, List.erase_cons_head]
    · simp only [shiftRemoveKey, h0, if_false, Option.map_eq_some'] at h
      obtain ⟨⟨v', rest'⟩, hq, heq⟩ := h
      have hv : v' = v := congrArg Prod.fst heq
      subst hv
      have hrest : (k', w) :: rest' = rest := congrArg Prod.snd heq
      rw [← hrest]
      simp [List.erase_cons, h0, ih hq]

theorem shiftRemoveKey_getKey?_ne {l : List (String × PausedTracker)}
    {k k' : String} (hne : k' ≠ k) {v : PausedTracker}
    {rest : List (String × PausedTracker)}
    (h : shiftRemoveKey l k = some (v, rest)) :
    getKey? rest k' = getKey? l k' := by
  induction l generalizing rest with
  | nil => simp [shiftRemoveKey] at h
  | cons p t ih =>
    obtain ⟨k₀, w⟩ := p
    by_cases h0 : k₀ = k
    · simp [shiftRemoveKey, h0] at h
      have hne0 : ¬ k = k' := fun hh => hne hh.symm
      simp [getKey?, ← h.2, hne0, h0]
    · simp only [shiftRemoveKey, h0, if_false, Option.map_eq_some'] at h
      obtain ⟨⟨v', rest'⟩, hq, heq⟩ := h
      have hv : v' = v := congrArg Prod.fst heq
      subst hv
      have hrest : (k₀, w) :: rest' = rest := congrArg Prod.snd heq
      rw [← hrest]
      by_cases h1 : k₀ = k' <;> simp [getKey?, h1, ih hq]

theorem shiftRemoveKey_updateKey (l : List (String × PausedTracker)) (k : String)
    (f : PausedTracker → PausedTracker) :
    shiftRemoveKey (updateKey l k f) k =
      (shiftRemoveKey l k).map (fun p => (f p.1, p.2)) := by
  induction l with
  | nil => rfl
  | cons p t ih =>
    obtain ⟨k', w⟩ := p
    by_cases h0 : k' = k
    · simp [updateKey, shiftRemoveKey, h0]
    · simp only [updateKey, shiftRemoveKey, h0, if_false, ih, Option.map_map]
      cases shiftRemoveKey t k <;> rfl

/-! ### Helper lemmas about `pause` and the derived views -/

namespace InnerAppData

theorem eta_running_none {s : InnerAppData} (h : s.running = none) :
    { s with running := none } = s := by
  cases s
  simp_all

theorem pause_of_running_none {s : InnerAppData} (h : s.running = none) (now : Nat) :
    s.pause now = some s := by
  rw [pause, h, eta_running_none h]

theorem pause_running {s s1 : InnerAppData} {now : Nat}
    (h : s.pause now = some s1) : s1.running = none := by
  cases hr : s.running with
  | none =>
    simp only [pause, hr, Option.some.injEq] at h
    rw [← h]
  | some r =>
    cases hg : getKey? s.trackers r.key with
    | none => simp [pause, hr, hg] at h
    | some t =>
      simp only [pause, hr, hg, Option.some.injEq] at h
      rw [← h]

theorem pause_keys {s s1 : InnerAppData} {now : Nat}
    (h : s.pause now = some s1) :
    s1.trackers.map (fun p => p.1) = s.trackers.map (fun p => p.1) := by
  cases hr : s.running with
  | none =>
    simp only [pause, hr, Option.some.injEq] at h
    rw [← h]
  | some r =>
    cases hg : getKey? s.trackers r.key with
    | none => simp [pause, hr, hg] at h
    | some t =>
      simp only [pause, hr, hg, Option.some.injEq] at h
      rw [← h]
      exact updateKey_keys _ _ _

theorem pause_isSome {s : InnerAppData} (h : markerOk s = true) (now : Nat) :
    (s.pause now).isSome = true := by
  cases hr : s.running with
  | none => simp [pause, hr]
  | some r =>
    simp only [markerOk, hr] at h
    rw [← getKey?_isSome_iff] at h
    cases hg : getKey? s.trackers r.key with
    | none => rw [hg] at h; simp at h
    | some t => simp [pause, hr, hg]

theorem pause_of_running_some {s : InnerAppData} {r : RunningTracker}
    {t : PausedTracker} (hr : s.running = some r)
    (hg : getKey? s.trackers r.key = some t) (now : Nat) :
    s.pause now = some
      { running := none
        trackers := updateKey s.trackers r.key (fun u =>
          { u with duration := u.duration + (now - r.start_time) }) } := by
  simp [pause, hr, hg]

theorem get_information_of_getKey? {s : InnerAppData} {key : String}
    {t : PausedTracker} (h : getKey? s.trackers key = some t) (now : Nat) :
    s.get_information key now = some
      { key := key
        id := t.id
        description := t.description
        duration := secTrunc (t.duration + runningElapsed s key now +
          t.positive_adjustments.sum - t.negative_adjustments.sum)
        running := runningMatches s.running key
        start_time := t.start_time } := by
  simp only [get_information, h, elapsed_seconds, elapsed, runningElapsed,
    Option.map_some']

theorem get_information_isSome {s : InnerAppData} {key : String}
    (h : containsKey s.trackers key = true) (now : Nat) :
    (s.get_information key now).isSome = true := by
  rw [← getKey?_isSome_iff] at h
  cases hg : getKey? s.trackers key with
  | none => rw [hg] at h; simp at h
  | some t =>
    rw [get_information_of_getKey? hg now]
    rfl

end InnerAppData

namespace InnerAppData

theorem elapsed_of_getKey? {s : InnerAppData} {key : String} {t : PausedTracker}
    (h : getKey? s.trackers key = some t) (now : Nat) :
    s.elapsed key now = some (t.duration + runningElapsed s key now +
      t.positive_adjustments.sum - t.negative_adjustments.sum) := by
  simp only [elapsed, h, Option.map_some', runningElapsed]

theorem elapsed_of_getKey?_none {s : InnerAppData} {key : String}
    (h : getKey? s.trackers key = none) (now : Nat) : s.elapsed key now = none := by
  simp only [elapsed, h, Option.map_none']

theorem runningMatches_false_of_absent {s : InnerAppData} {key : String}
    (hm : markerOk s = true) (habs : containsKey s.trackers key = false) :
    runningMatches s.running key = false := by
  cases hr : s.running with
  | none => rfl
  | some r =>
    simp only [markerOk, hr] at hm
    simp only [runningMatches]
    by_cases hk : r.key = key
    · rw [hk] at hm
      rw [hm] at habs
      cases habs
    · simp [hk]

theorem runningElapsed_eq_zero {s : InnerAppData} {key : String}
    (h : runningMatches s.running key = false) (now : Nat) :
    runningElapsed s key now = 0 := by
  cases hr : s.running with
  | none => simp [runningElapsed, hr]
  | some r =>
    simp only [runningMatches, hr] at h
    simp [runningElapsed, hr, of_decide_eq_false h]

end InnerAppData

/-- Shared concrete fixture: a store with a running tracker `AB-1` (started
at instant 5) and a paused tracker `CD-2`. -/
def exA : PausedTracker :=
  { id := "X"
    description := none
    duration := 3
    positive_adjustments := [2]
    negative_adjustments := [1]
    start_time := 0 }

/-- Shared concrete fixture: the paused tracker entry `CD-2`. -/
def exB : PausedTracker :=
  { id := "Y"
    description := some "d"
    duration := 10
    positive_adjustments := []
    negative_adjustments := []
    start_time := 1 }

/-- Shared concrete fixture state used to instantiate the claim theorems. -/
def sEx : InnerAppData :=
  { running := some { key := "AB-1", start_time := 5 }
    trackers := [("AB-1", exA), ("CD-2", exB)] }

/-- C4: for every tracker in the store, `elapsed(key)` is the accumulated
duration plus the running elapsed plus the positive adjustments minus the
negative adjustments, with truncated (saturating) subtraction; the running
elapsed is zero unless the marker's key equals the tracker's key, in which
case it is now minus the marker's start instant (the content of
`runningElapsed`); `elapsed_seconds(key)` truncates this to whole seconds. -/
theorem claim_C4_elapsed_formula (s : InnerAppData) (key : String) (t : PausedTracker)
    (now : Nat) (h : getKey? s.trackers key = some t) :
    s.elapsed key now = some (t.duration + runningElapsed s key now +
      t.positive_adjustments.sum - t.negative_adjustments.sum) ∧
    (t.negative_adjustments.sum ≤
        t.duration + runningElapsed s key now + t.positive_adjustments.sum →
      (t.duration + runningElapsed s key now + t.positive_adjustments.sum -
          t.negative_adjustments.sum) + t.negative_adjustments.sum =
        t.duration + runningElapsed s key now + t.positive_adjustments.sum) ∧
    (t.duration + runningElapsed s key now + t.positive_adjustments.sum ≤
        t.negative_adjustments.sum →
      s.elapsed key now = some 0) ∧
    s.elapsed_seconds key now = some
      (secTrunc (t.duration + runningElapsed s key now +
        t.positive_adjustments.sum - t.negative_adjustments.sum)) := by
  refine ⟨InnerAppData.elapsed_of_getKey? h now, fun hle => Nat.sub_add_cancel hle,
    fun hle => ?_, ?_⟩
  · rw [InnerAppData.elapsed_of_getKey? h now, Nat.sub_eq_zero_of_le hle]
  · rw [InnerAppData.elapsed_seconds, InnerAppData.elapsed_of_getKey? h now,
      Option.map_some']

/-- Witness for C4 at the shared fixture: the running tracker `AB-1` at
`now = 9` has elapsed `3 + (9 - 5) + 2 - 1 = 8` nanoseconds, truncating to
`0` whole seconds. -/
theorem claim_C4_elapsed_formula_witness :
    sEx.elapsed "AB-1" 9 = some 8 ∧ sEx.elapsed_seconds "AB-1" 9 = some 0 := by
  have h := claim_C4_elapsed_formula sEx "AB-1" exA 9 (by decide)
  exact ⟨h.1, h.2.2.2⟩

/-- C8: `pause` never fails under the running-marker invariant; with nothing
running it returns the state entirely unchanged (so `sum()` and `list()` are
identical before and after), a second `pause` right after a first one leaves
the state of the first (idempotence), and with a marker present it folds the
live elapsed time `now - start_instant` into the matching tracker's duration
and clears the marker. -/
theorem claim_C8_pause_noop_idempotent_fold (s : InnerAppData) (now now' : Nat) :
    (s.running = none → s.pause now = some s) ∧
    (∀ s1, s.pause now = some s1 → s1.pause now' = some s1) ∧
    (∀ r t, s.running = some r → getKey? s.trackers r.key = some t →
      s.pause now = some
        { running := none
          trackers := updateKey s.trackers r.key (fun u =>
            { u with duration := u.duration + (now - r.start_time) }) }) ∧
    (markerOk s = true → (s.pause now).isSome = true) := by
  refine ⟨fun h => InnerAppData.pause_of_running_none h now,
    fun s1 h => InnerAppData.pause_of_running_none (InnerAppData.pause_running h) now',
    fun r t hr hg => InnerAppData.pause_of_running_some hr hg now,
    fun h => InnerAppData.pause_isSome h now⟩

/-- Witness for C8 at the shared fixture: pausing the running store at
`now = 9` folds `9 - 5 = 4` into `AB-1`'s duration and clears the marker,
and pausing again changes nothing. -/
theorem claim_C8_pause_witness :
    sEx.pause 9 = some
      { running := none
        trackers := [("AB-1", { exA with duration := 7 }), ("CD-2", exB)] } ∧
    (InnerAppData.pause
      { running := none
        trackers := [("AB-1", { exA with duration := 7 }), ("CD-2", exB)] } 12).isSome
      = true := by
  constructor
  · have h := (claim_C8_pause_noop_idempotent_fold sEx 9 12).2.2.1
      { key := "AB-1", start_time := 5 } exA rfl rfl
    simpa [sEx, exA, exB, updateKey] using h
  · exact (claim_C8_pause_noop_idempotent_fold _ 12 0).2.2.2 (by decide)

/-- C2: `create` rejects any key not containing a match of `\w+-\d+` with
`KeyFormatError` and an unchanged store, rejects an already-present key with
`OccupiedError` leaving the existing tracker (and whole store) untouched, and
otherwise appends a fresh zero-duration tracker whose view has duration zero
and `running = false`; in every case the running marker is unchanged. -/
theorem claim_C2_create (s : InnerAppData) (key id : String) (now : Nat) :
    (keyIsMatch key = false →
      s.create_tracker key id now = some (.error .KeyFormatError, s)) ∧
    (keyIsMatch key = true → containsKey s.trackers key = true →
      s.create_tracker key id now = some (.error .OccupiedError, s)) ∧
    (keyIsMatch key = true → containsKey s.trackers key = false → markerOk s = true →
      ∃ info, s.create_tracker key id now = some (.ok info,
          { running := s.running
            trackers := s.trackers ++ [(key, PausedTracker.new id now)] }) ∧
        info.duration = 0 ∧ info.running = false) := by
  refine ⟨fun h => ?_, fun h1 h2 => ?_, fun h1 h2 hm => ?_⟩
  · simp [InnerAppData.create_tracker, h]
  · simp [InnerAppData.create_tracker, h1, h2]
  · have habs : getKey? s.trackers key = none := (getKey?_eq_none_iff _ _).2 h2
    have hget : getKey? (s.trackers ++ [(key, PausedTracker.new id now)]) key =
        some (PausedTracker.new id now) := by
      rw [getKey?_append_right _ habs]
      simp [getKey?]
    have hrm : InnerAppData.runningMatches s.running key = false :=
      InnerAppData.runningMatches_false_of_absent hm h2
    have hinfo := InnerAppData.get_information_of_getKey?
      (s := { running := s.running
              trackers := s.trackers ++ [(key, PausedTracker.new id now)] })
      hget now
    have hz : runningElapsed
        { running := s.running
          trackers := s.trackers ++ [(key, PausedTracker.new id now)] } key now = 0 :=
      InnerAppData.runningElapsed_eq_zero hrm now
    refine ⟨{ key := key
              id := id
              description := none
              duration := 0
              running := false
              start_time := now }, ?_, rfl, rfl⟩
    simp only [InnerAppData.create_tracker, h1, Bool.not_true, Bool.false_eq_true,
      if_false, h2]
    rw [hinfo]
    simp only [hz]
    simp [PausedTracker.new, hrm, secTrunc]

/-- Witness for C2: creating in the empty store fails `KeyFormatError` on
`"bad key"` leaving the store empty, and succeeds on `"AB-1"` appending a
fresh tracker whose view has duration zero and `running = false`. -/
theorem claim_C2_create_witness :
    InnerAppData.new.create_tracker "bad key" "X" 0 =
      some (.error .KeyFormatError, InnerAppData.new) ∧
    ∃ info, InnerAppData.new.create_tracker "AB-1" "X" 0 = some (.ok info,
        { running := none, trackers := [("AB-1", PausedTracker.new "X" 0)] }) ∧
      info.duration = 0 ∧ info.running = false := by
  constructor
  · exact (claim_C2_create InnerAppData.new "bad key" "X" 0).1 (by decide)
  · have h := (claim_C2_create InnerAppData.new "AB-1" "X" 0).2.2
      (by decide) (by decide) (by decide)
    simpa [InnerAppData.new] using h

/-- C5: `adjust_negative` fails `NotFoundError` on an absent key with the
store unchanged; with the key present it computes the current elapsed first
and fails `DurationAdjustmentError` exactly when the requested duration
exceeds it, again leaving the store (and so the adjustment lists) unchanged;
on success it appends the duration to `negative_adjustments`, and the new
elapsed is exactly the old elapsed minus the duration, so it never goes
below zero. -/
theorem claim_C5_adjust_negative (s : InnerAppData) (key : String) (d : Duration)
    (now : Nat) :
    (getKey? s.trackers key = none →
      s.adjust_negative_duration key d now = some (.error .NotFoundError, s)) ∧
    (∀ e, s.elapsed key now = some e → e < d →
      s.adjust_negative_duration key d now =
        some (.error .DurationAdjustmentError, s)) ∧
    (∀ e, s.elapsed key now = some e → d ≤ e →
      ∃ info s', s.adjust_negative_duration key d now = some (.ok info, s') ∧
        s'.running = s.running ∧
        s'.trackers = updateKey s.trackers key (fun t =>
          { t with negative_adjustments := t.negative_adjustments ++ [d] }) ∧
        s'.elapsed key now = some (e - d)) := by
  refine ⟨fun h => ?_, fun e he hlt => ?_, fun e he hle => ?_⟩
  · simp [InnerAppData.adjust_negative_duration,
      InnerAppData.elapsed_of_getKey?_none h now]
  · simp [InnerAppData.adjust_negative_duration, he, hlt]
  · obtain ⟨t, ht⟩ : ∃ t, getKey? s.trackers key = some t := by
      rcases hg : getKey? s.trackers key with - | t
      · rw [InnerAppData.elapsed_of_getKey?_none hg now] at he
        cases he
      · exact ⟨t, rfl⟩
    have hval : e = t.duration + runningElapsed s key now +
        t.positive_adjustments.sum - t.negative_adjustments.sum := by
      rw [InnerAppData.elapsed_of_getKey? ht now] at he
      exact (Option.some.inj he).symm
    have hget' : getKey? (updateKey s.trackers key (fun t =>
        { t with negative_adjustments := t.negative_adjustments ++ [d] })) key =
        some { t with negative_adjustments := t.negative_adjustments ++ [d] } := by
      rw [getKey?_updateKey_self, ht, Option.map_some']
    have hinfo := InnerAppData.get_information_of_getKey?
      (s := { running := s.running
              trackers := updateKey s.trackers key (fun t =>
                { t with negative_adjustments := t.negative_adjustments ++ [d] }) })
      hget' now
    have hel : InnerAppData.elapsed
        { running := s.running
          trackers := updateKey s.trackers key (fun t =>
            { t with negative_adjustments := t.negative_adjustments ++ [d] }) }
        key now = some (e - d) := by
      rw [InnerAppData.elapsed_of_getKey?
        (s := { running := s.running
                trackers := updateKey s.trackers key (fun t =>
                  { t with negative_adjustments := t.negative_adjustments ++ [d] }) })
        hget' now]
      have hre : runningElapsed
          { running := s.running
            trackers := updateKey s.trackers key (fun t =>
              { t with negative_adjustments := t.negative_adjustments ++ [d] }) }
          key now = runningElapsed s key now := rfl
      simp only [hre, List.sum_append, List.sum_cons, List.sum_nil, hval]
      rw [Nat.sub_sub]
      simp [Nat.add_zero]
    have hsome : s.adjust_negative_duration key d now =
        Option.map (fun info => (Except.ok info,
          ({ running := s.running
             trackers := updateKey s.trackers key (fun t =>
               { t with negative_adjustments := t.negative_adjustments ++ [d] }) } :
            InnerAppData)))
          (InnerAppData.get_information
            { running := s.running
              trackers := updateKey s.trackers key (fun t =>
                { t with negative_adjustments := t.negative_adjustments ++ [d] }) }
            key now) := by
      simp only [InnerAppData.adjust_negative_duration, he, gt_iff_lt,
        Nat.not_lt.2 hle, if_false, ht]
    rw [hinfo, Option.map_some'] at hsome
    exact ⟨_, _, hsome, rfl, rfl, hel⟩

/-- Witness for C5 at the shared fixture: `AB-1` has elapsed 8 at `now = 9`;
adjusting by 15 fails `DurationAdjustmentError` with the store unchanged,
while adjusting by 5 succeeds and the new elapsed is 3. -/
theorem claim_C5_adjust_negative_witness :
    sEx.adjust_negative_duration "AB-1" 15 9 =
      some (.error .DurationAdjustmentError, sEx) ∧
    ∃ info s', sEx.adjust_negative_duration "AB-1" 5 9 = some (.ok info, s') ∧
      s'.elapsed "AB-1" 9 = some 3 := by
  constructor
  · exact (claim_C5_adjust_negative sEx "AB-1" 15 9).2.1 8 (by decide) (by decide)
  · obtain ⟨info, s', h1, -, -, h4⟩ :=
      (claim_C5_adjust_negative sEx "AB-1" 5 9).2.2 8 (by decide) (by decide)
    exact ⟨info, s', h1, h4⟩

/-- Shared concrete fixture: the same two trackers with nothing running. -/
def sP : InnerAppData :=
  { running := none
    trackers := [("AB-1", exA), ("CD-2", exB)] }

/-- C3: `start` fails `NotFoundError` on an absent key leaving the store
unchanged; from an idle store with keys A ≠ B present, `start A` at `t1` then
`start B` at `t2` installs the marker for B with start instant `t2`, grows
A's stored duration by exactly `t2 - t1`, and `current()` then reports B
running; restarting the already-running key folds `t2` minus the previous
start instant into its duration and resets the marker's instant to `t2`
(so `start` is not idempotent for elapsed accounting). -/
theorem claim_C3_start_semantics (s : InnerAppData) (A B : String) (t1 t2 t3 : Nat) :
    (∀ key now, containsKey s.trackers key = false →
      s.start key now = some (.error .NotFoundError, s)) ∧
    (s.running = none → containsKey s.trackers A = true →
      containsKey s.trackers B = true → A ≠ B →
      ∃ infoA sA infoB sB,
        s.start A t1 = some (.ok infoA, sA) ∧
        sA.start B t2 = some (.ok infoB, sB) ∧
        sB.running = some { key := B, start_time := t2 } ∧
        getKey? sB.trackers A = (getKey? s.trackers A).map (fun u =>
          { u with duration := u.duration + (t2 - t1) }) ∧
        (∃ infoC, sB.current t3 = some (.ok infoC) ∧ infoC.key = B ∧
          infoC.running = true)) ∧
    (∀ r tA, s.running = some r → r.key = A → getKey? s.trackers A = some tA →
      ∃ info s', s.start A t2 = some (.ok info, s') ∧
        s'.running = some { key := A, start_time := t2 } ∧
        getKey? s'.trackers A = some
          { tA with duration := tA.duration + (t2 - r.start_time) }) := by
  refine ⟨fun key now h => ?_, fun hm hA hB hAB => ?_, fun r tA hr hkey htA => ?_⟩
  · simp [InnerAppData.start, h]
  · obtain ⟨tA, htA⟩ : ∃ t, getKey? s.trackers A = some t := by
      have hx := (getKey?_isSome_iff s.trackers A).2 hA
      cases h : getKey? s.trackers A
      · rw [h] at hx; cases hx
      · exact ⟨_, rfl⟩
    obtain ⟨tB, htB⟩ : ∃ t, getKey? s.trackers B = some t := by
      have hx := (getKey?_isSome_iff s.trackers B).2 hB
      cases h : getKey? s.trackers B
      · rw [h] at hx; cases hx
      · exact ⟨_, rfl⟩
    have hgB : getKey? (updateKey s.trackers A (fun u =>
        { u with duration := u.duration + (t2 - t1) })) B = some tB := by
      rw [getKey?_updateKey_ne _ (Ne.symm hAB), htB]
    obtain ⟨infoA, h1⟩ : ∃ infoA, s.start A t1 = some (.ok infoA,
        (⟨some ⟨A, t1⟩, s.trackers⟩ : InnerAppData)) := by
      simp only [InnerAppData.start, hA, if_true,
        InnerAppData.pause_of_running_none hm t1]
      rw [InnerAppData.get_information_of_getKey?
        (s := ⟨some ⟨A, t1⟩, s.trackers⟩) htA t1]
      exact ⟨_, rfl⟩
    obtain ⟨infoB, h2⟩ : ∃ infoB,
        InnerAppData.start (⟨some ⟨A, t1⟩, s.trackers⟩ : InnerAppData) B t2 =
          some (.ok infoB, (⟨some ⟨B, t2⟩, updateKey s.trackers A (fun u =>
            { u with duration := u.duration + (t2 - t1) })⟩ : InnerAppData)) := by
      simp only [InnerAppData.start, hB, if_true,
        InnerAppData.pause_of_running_some
          (s := ⟨some ⟨A, t1⟩, s.trackers⟩) (r := ⟨A, t1⟩) rfl htA t2]
      rw [InnerAppData.get_information_of_getKey?
        (s := ⟨some ⟨B, t2⟩, updateKey s.trackers A (fun u =>
          { u with duration := u.duration + (t2 - t1) })⟩) hgB t2]
      exact ⟨_, rfl⟩
    refine ⟨infoA, _, infoB, _, h1, h2, rfl, ?_, ?_⟩
    · rw [getKey?_updateKey_self]
    · have hcur : InnerAppData.current
          (⟨some ⟨B, t2⟩, updateKey s.trackers A (fun u =>
            { u with duration := u.duration + (t2 - t1) })⟩ : InnerAppData) t3 =
          (InnerAppData.get_information
            (⟨some ⟨B, t2⟩, updateKey s.trackers A (fun u =>
              { u with duration := u.duration + (t2 - t1) })⟩ : InnerAppData)
            B t3).map Except.ok := by
        simp only [InnerAppData.current]
      rw [InnerAppData.get_information_of_getKey?
        (s := ⟨some ⟨B, t2⟩, updateKey s.trackers A (fun u =>
          { u with duration := u.duration + (t2 - t1) })⟩) hgB t3,
        Option.map_some'] at hcur
      exact ⟨_, hcur, rfl, by simp [InnerAppData.runningMatches]⟩
  · have hA : containsKey s.trackers A = true := by
      rw [← getKey?_isSome_iff, htA]
      rfl
    have hgr : getKey? s.trackers r.key = some tA := by rw [hkey]; exact htA
    have hgA' : getKey? (updateKey s.trackers r.key (fun u =>
        { u with duration := u.duration + (t2 - r.start_time) })) A =
        some { tA with duration := tA.duration + (t2 - r.start_time) } := by
      rw [hkey, getKey?_updateKey_self, htA, Option.map_some']
    obtain ⟨info, h3⟩ : ∃ info, s.start A t2 = some (.ok info,
        (⟨some ⟨A, t2⟩, updateKey s.trackers r.key (fun u =>
          { u with duration := u.duration + (t2 - r.start_time) })⟩ : InnerAppData)) := by
      simp only [InnerAppData.start, hA, if_true,
        InnerAppData.pause_of_running_some hr hgr t2]
      rw [InnerAppData.get_information_of_getKey?
        (s := ⟨some ⟨A, t2⟩, updateKey s.trackers r.key (fun u =>
          { u with duration := u.duration + (t2 - r.start_time) })⟩) hgA' t2]
      exact ⟨_, rfl⟩
    exact ⟨info, _, h3, rfl, hgA'⟩

/-- Witness for C3 at the idle fixture: starting `AB-1` at instant 5 and then
`CD-2` at instant 9 leaves `CD-2` running (confirmed by `current`) and grows
`AB-1`'s duration by exactly 4. -/
theorem claim_C3_start_semantics_witness :
    ∃ infoA sA infoB sB,
      sP.start "AB-1" 5 = some (.ok infoA, sA) ∧
      sA.start "CD-2" 9 = some (.ok infoB, sB) ∧
      sB.running = some { key := "CD-2", start_time := 9 } ∧
      getKey? sB.trackers "AB-1" = (getKey? sP.trackers "AB-1").map (fun u =>
        { u with duration := u.duration + (9 - 5) }) ∧
      (∃ infoC, sB.current 12 = some (.ok infoC) ∧ infoC.key = "CD-2" ∧
        infoC.running = true) :=
  (claim_C3_start_semantics sP "AB-1" "CD-2" 5 9 12).2.1 rfl (by decide)
    (by decide) (by decide)

theorem InnerAppData.list_trackers_spec (s : InnerAppData) (now : Nat) :
    ∃ views, s.list_trackers now = some views ∧
      views.map (fun v => v.key) = s.trackers.map (fun p => p.1) := by
  rw [InnerAppData.list_trackers]
  have main : ∀ l : List (String × PausedTracker),
      (∀ p ∈ l, containsKey s.trackers p.1 = true) →
      ∃ views, l.mapM (fun p => s.get_information p.1 now) = some views ∧
        views.map (fun v => v.key) = l.map (fun p => p.1) := by
    intro l
    induction l with
    | nil => exact fun _ => ⟨[], rfl, rfl⟩
    | cons p rest ih =>
      intro hmem
      obtain ⟨views, hv, hk⟩ := ih (fun q hq => hmem q (List.mem_cons_of_mem _ hq))
      have hc := hmem p (List.mem_cons_self _ _)
      rw [← getKey?_isSome_iff] at hc
      obtain ⟨t, ht⟩ : ∃ t, getKey? s.trackers p.1 = some t := by
        cases hg : getKey? s.trackers p.1
        · rw [hg] at hc; cases hc
        · exact ⟨_, rfl⟩
      have hcons : List.mapM (fun q => s.get_information q.1 now) (p :: rest) =
          some ({ key := p.1
                  id := t.id
                  description := t.description
                  duration := secTrunc (t.duration + runningElapsed s p.1 now +
                    t.positive_adjustments.sum - t.negative_adjustments.sum)
                  running := InnerAppData.runningMatches s.running p.1
                  start_time := t.start_time } :: views) := by
        rw [List.mapM_cons, InnerAppData.get_information_of_getKey? ht now, hv]
        rfl
      exact ⟨_, hcons, by simp [hk]⟩
  exact main s.trackers (fun p hp => containsKey_self_of_mem _ p hp)

/-- C6: `list` materializes one view per tracker in insertion order (its keys
are exactly the map's keys in order); `remove` fails `NotFoundError` when the
key is absent (leaving the store unchanged, given the marker invariant);
removing a present, not-running key deletes exactly its entry, preserving the
order of the remaining entries, and returns the full stored record; removing
the running key first folds the live elapsed time into the record's duration
and clears the marker. -/
theorem claim_C6_list_and_remove (s : InnerAppData) (key : String) (now : Nat) :
    (∃ views, s.list_trackers now = some views ∧
      views.map (fun v => v.key) = s.trackers.map (fun p => p.1)) ∧
    (markerOk s = true → containsKey s.trackers key = false →
      s.remove key now = some (.error .NotFoundError, s)) ∧
    (∀ t rest, InnerAppData.runningMatches s.running key = false →
      shiftRemoveKey s.trackers key = some (t, rest) →
      s.remove key now = some (.ok t, { s with trackers := rest }) ∧
      rest.map (fun p => p.1) = (s.trackers.map (fun p => p.1)).erase key) ∧
    (∀ r t, s.running = some r → r.key = key → getKey? s.trackers key = some t →
      ∃ rest, s.remove key now = some
          (.ok { t with duration := t.duration + (now - r.start_time) },
            (⟨none, rest⟩ : InnerAppData)) ∧
        rest.map (fun p => p.1) = (s.trackers.map (fun p => p.1)).erase key) := by
  refine ⟨InnerAppData.list_trackers_spec s now, fun hm habs => ?_,
    fun t rest hnr hsr => ?_, fun r t hr hkey hg => ?_⟩
  · have hnr := InnerAppData.runningMatches_false_of_absent hm habs
    simp only [InnerAppData.remove, hnr, Bool.false_eq_true, if_false,
      (shiftRemoveKey_eq_none_iff _ _).2 habs]
  · constructor
    · simp only [InnerAppData.remove, hnr, Bool.false_eq_true, if_false, hsr]
    · exact shiftRemoveKey_keys hsr
  · have hrm : InnerAppData.runningMatches s.running key = true := by
      simp [InnerAppData.runningMatches, hr, hkey]
    have hg' : getKey? s.trackers r.key = some t := by rw [hkey]; exact hg
    obtain ⟨rest0, hsr0⟩ : ∃ rest0, shiftRemoveKey s.trackers key = some (t, rest0) := by
      cases hx : shiftRemoveKey s.trackers key with
      | none =>
        rw [shiftRemoveKey_eq_none_iff] at hx
        rw [(getKey?_eq_none_iff _ _).2 hx] at hg
        cases hg
      | some p =>
        obtain ⟨v, rest0⟩ := p
        have hfst := shiftRemoveKey_fst hx
        rw [hg] at hfst
        have hv : t = v := Option.some.inj hfst
        exact ⟨rest0, by rw [hv]⟩
    have hsru : shiftRemoveKey (updateKey s.trackers r.key (fun u =>
        { u with duration := u.duration + (now - r.start_time) })) key =
        some ({ t with duration := t.duration + (now - r.start_time) }, rest0) := by
      rw [hkey, shiftRemoveKey_updateKey, hsr0, Option.map_some']
    refine ⟨rest0, ?_, shiftRemoveKey_keys hsr0⟩
    simp only [InnerAppData.remove, hrm, if_true,
      InnerAppData.pause_of_running_some hr hg' now, hsru]

/-- Witness for C6 at the running fixture: removing the running key `AB-1` at
instant 9 folds 4 nanoseconds into its duration, clears the marker, and
leaves only `CD-2`. -/
theorem claim_C6_list_and_remove_witness :
    ∃ rest, sEx.remove "AB-1" 9 = some
        (.ok { exA with duration := exA.duration + (9 - 5) },
          (⟨none, rest⟩ : InnerAppData)) ∧
      rest.map (fun p => p.1) = (sEx.trackers.map (fun p => p.1)).erase "AB-1" :=
  (claim_C6_list_and_remove sEx "AB-1" 9).2.2.2 { key := "AB-1", start_time := 5 }
    exA rfl rfl (by decide)

/-! ### State characterization of each mutating operation -/

namespace InnerAppData

theorem markerOk_of_running_none {s : InnerAppData} (h : s.running = none) :
    markerOk s = true := by
  simp [markerOk, h]

theorem markerOk_of_keys_eq {s s' : InnerAppData} (hr : s'.running = s.running)
    (hk : s'.trackers.map (fun p => p.1) = s.trackers.map (fun p => p.1))
    (hm : markerOk s = true) : markerOk s' = true := by
  cases hrr : s'.running with
  | none => simp [markerOk, hrr]
  | some r =>
    have hsr : s.running = some r := (hr.symm.trans hrr :)
    simp only [markerOk, hsr] at hm
    simp only [markerOk, hrr]
    rw [containsKey_congr_keys hk]
    exact hm

theorem create_state {s : InnerAppData} {key id : String} {now : Nat}
    {res : Except TrackerError TrackerInformation} {s' : InnerAppData}
    (h : s.create_tracker key id now = some (res, s')) :
    s' = s ∨ (containsKey s.trackers key = false ∧ s'.running = s.running ∧
      s'.trackers = s.trackers ++ [(key, PausedTracker.new id now)]) := by
  cases hk : keyIsMatch key with
  | false =>
    simp only [create_tracker, hk, Bool.not_false, if_true, Option.some.injEq,
      Prod.mk.injEq] at h
    exact Or.inl h.2.symm
  | true =>
    cases hc : containsKey s.trackers key with
    | true =>
      simp only [create_tracker, hk, Bool.not_true, Bool.false_eq_true, if_false,
        hc, if_true, Option.some.injEq, Prod.mk.injEq] at h
      exact Or.inl h.2.symm
    | false =>
      simp only [create_tracker, hk, Bool.not_true, Bool.false_eq_true, if_false,
        hc, Option.map_eq_some'] at h
      obtain ⟨info, -, heq⟩ := h
      simp only [Prod.mk.injEq] at heq
      exact Or.inr ⟨rfl, by rw [← heq.2], by rw [← heq.2]⟩

theorem set_description_state {s : InnerAppData} {key : String} {d : Option String}
    {now : Nat} {res : Except TrackerError TrackerInformation} {s' : InnerAppData}
    (h : s.set_description key d now = some (res, s')) :
    s' = s ∨ ∃ f, s'.running = s.running ∧ s'.trackers = updateKey s.trackers key f := by
  cases hg : getKey? s.trackers key with
  | none =>
    simp only [set_description, hg, Option.some.injEq, Prod.mk.injEq] at h
    exact Or.inl h.2.symm
  | some t =>
    simp only [set_description, hg, Option.map_eq_some'] at h
    obtain ⟨info, -, heq⟩ := h
    simp only [Prod.mk.injEq] at heq
    exact Or.inr ⟨_, by rw [← heq.2], by rw [← heq.2]⟩

theorem adjust_positive_state {s : InnerAppData} {key : String} {d : Duration}
    {now : Nat} {res : Except TrackerError TrackerInformation} {s' : InnerAppData}
    (h : s.adjust_positive_duration key d now = some (res, s')) :
    s' = s ∨ ∃ f, s'.running = s.running ∧ s'.trackers = updateKey s.trackers key f := by
  cases hg : getKey? s.trackers key with
  | none =>
    simp only [adjust_positive_duration, hg, Option.some.injEq, Prod.mk.injEq] at h
    exact Or.inl h.2.symm
  | some t =>
    simp only [adjust_positive_duration, hg, Option.map_eq_some'] at h
    obtain ⟨info, -, heq⟩ := h
    simp only [Prod.mk.injEq] at heq
    exact Or.inr ⟨_, by rw [← heq.2], by rw [← heq.2]⟩

theorem adjust_negative_state {s : InnerAppData} {key : String} {d : Duration}
    {now : Nat} {res : Except TrackerError TrackerInformation} {s' : InnerAppData}
    (h : s.adjust_negative_duration key d now = some (res, s')) :
    s' = s ∨ ∃ f, s'.running = s.running ∧ s'.trackers = updateKey s.trackers key f := by
  cases he : s.elapsed key now with
  | none =>
    simp only [adjust_negative_duration, he, Option.some.injEq, Prod.mk.injEq] at h
    exact Or.inl h.2.symm
  | some e =>
    by_cases hlt : d > e
    · simp only [adjust_negative_duration, he, hlt, if_true, Option.some.injEq,
        Prod.mk.injEq] at h
      exact Or.inl h.2.symm
    · cases hg : getKey? s.trackers key with
      | none =>
        simp only [adjust_negative_duration, he, hlt, if_false, hg] at h
        exact Option.noConfusion h
      | some t =>
        simp only [adjust_negative_duration, he, hlt, if_false, hg,
          Option.map_eq_some'] at h
        obtain ⟨info, -, heq⟩ := h
        simp only [Prod.mk.injEq] at heq
        exact Or.inr ⟨_, by rw [← heq.2], by rw [← heq.2]⟩

theorem start_state {s : InnerAppData} {key : String} {now : Nat}
    {res : Except TrackerError TrackerInformation} {s' : InnerAppData}
    (h : s.start key now = some (res, s')) :
    s' = s ∨ ∃ s1, s.pause now = some s1 ∧ containsKey s.trackers key = true ∧
      s'.running = some { key := key, start_time := now } ∧
      s'.trackers = s1.trackers := by
  cases hc : containsKey s.trackers key with
  | false =>
    simp only [start, hc, Bool.false_eq_true, if_false, Option.some.injEq,
      Prod.mk.injEq] at h
    exact Or.inl h.2.symm
  | true =>
    simp only [start, hc, if_true] at h
    cases hp : s.pause now with
    | none => rw [hp] at h; cases h
    | some s1 =>
      rw [hp] at h
      simp only [Option.map_eq_some'] at h
      obtain ⟨info, -, heq⟩ := h
      simp only [Prod.mk.injEq] at heq
      exact Or.inr ⟨s1, rfl, rfl, by rw [← heq.2], by rw [← heq.2]⟩

theorem remove_state {s : InnerAppData} {key : String} {now : Nat}
    {res : Except TrackerError PausedTracker} {s' : InnerAppData}
    (h : s.remove key now = some (res, s')) :
    ∃ s1, ((runningMatches s.running key = true ∧ s.pause now = some s1) ∨
        (runningMatches s.running key = false ∧ s1 = s)) ∧
      (s' = s1 ∨ ∃ t rest, shiftRemoveKey s1.trackers key = some (t, rest) ∧
        s'.running = s1.running ∧ s'.trackers = rest) := by
  cases hrm : runningMatches s.running key with
  | true =>
    cases hp : s.pause now with
    | none =>
      simp only [remove, hrm, if_true, hp] at h
      exact Option.noConfusion h
    | some s1 =>
      cases hsr : shiftRemoveKey s1.trackers key with
      | none =>
        simp only [remove, hrm, if_true, hp, hsr, Option.some.injEq,
          Prod.mk.injEq] at h
        exact ⟨s1, Or.inl ⟨rfl, rfl⟩, Or.inl h.2.symm⟩
      | some p =>
        obtain ⟨t, rest⟩ := p
        simp only [remove, hrm, if_true, hp, hsr, Option.some.injEq,
          Prod.mk.injEq] at h
        exact ⟨s1, Or.inl ⟨rfl, rfl⟩,
          Or.inr ⟨t, rest, hsr, by rw [← h.2], by rw [← h.2]⟩⟩
  | false =>
    cases hsr : shiftRemoveKey s.trackers key with
    | none =>
      simp only [remove, hrm, Bool.false_eq_true, if_false, hsr, Option.some.injEq,
        Prod.mk.injEq] at h
      exact ⟨s, Or.inr ⟨rfl, rfl⟩, Or.inl h.2.symm⟩
    | some p =>
      obtain ⟨t, rest⟩ := p
      simp only [remove, hrm, Bool.false_eq_true, if_false, hsr, Option.some.injEq,
        Prod.mk.injEq] at h
      exact ⟨s, Or.inr ⟨rfl, rfl⟩,
        Or.inr ⟨t, rest, hsr, by rw [← h.2], by rw [← h.2]⟩⟩

theorem remove_all_state {s : InnerAppData} {now : Nat}
    {res : List PausedTracker} {s' : InnerAppData}
    (h : s.remove_all now = some (res, s')) :
    ∃ s1 rest, s.pause now = some s1 ∧
      removeEach (s1.trackers.map (fun p => p.1)) s1.trackers = some (res, rest) ∧
      s'.running = s1.running ∧ s'.trackers = rest := by
  cases hp : s.pause now with
  | none =>
    simp only [remove_all, hp] at h
    exact Option.noConfusion h
  | some s1 =>
    cases hre : removeEach (s1.trackers.map (fun p => p.1)) s1.trackers with
    | none =>
      simp only [remove_all, hp, hre] at h
      exact Option.noConfusion h
    | some p =>
      obtain ⟨vs, rest⟩ := p
      simp only [remove_all, hp, hre, Option.some.injEq, Prod.mk.injEq] at h
      obtain ⟨hv, hs'⟩ := h
      refine ⟨s1, rest, rfl, ?_, by rw [← hs'], by rw [← hs']⟩
      rw [hre, hv]

end InnerAppData

namespace InnerAppData

theorem markerOk_of_contains {s : InnerAppData}
    (h : ∀ r, s.running = some r → containsKey s.trackers r.key = true) :
    markerOk s = true := by
  cases hr : s.running with
  | none => simp [markerOk, hr]
  | some r =>
    simp only [markerOk, hr]
    exact h r hr

theorem markerOk_elim {s : InnerAppData} (hm : markerOk s = true)
    {r : RunningTracker} (hr : s.running = some r) :
    containsKey s.trackers r.key = true := by
  simp only [markerOk, hr] at hm
  exact hm

theorem runningMatches_false_elim {running : Option RunningTracker} {key : String}
    {r : RunningTracker} (h : runningMatches running key = false)
    (hr : running = some r) : r.key ≠ key := by
  subst hr
  simp only [runningMatches] at h
  exact of_decide_eq_false h

end InnerAppData

/-- The running-marker invariant is preserved by every successful public
mutating operation. -/
theorem applyOp_markerOk {op : Op} {s : InnerAppData} {now : Nat} {s' : InnerAppData}
    (hm : markerOk s = true) (h : applyOp op s now = some s') : markerOk s' = true := by
  cases op with
  | create key id =>
    simp only [applyOp, Option.map_eq_some'] at h
    obtain ⟨⟨res, s''⟩, hc, hs'⟩ := h
    have hss : s'' = s' := hs'
    subst hss
    rcases InnerAppData.create_state hc with heq | ⟨hc0, hr, ht⟩
    · exact heq ▸ hm
    · refine InnerAppData.markerOk_of_contains (fun r hrr => ?_)
      have hsr : s.running = some r := by rw [← hr, hrr]
      rw [ht, containsKey_append, InnerAppData.markerOk_elim hm hsr]
      rfl
  | start key =>
    simp only [applyOp, Option.map_eq_some'] at h
    obtain ⟨⟨res, s''⟩, hc, hs'⟩ := h
    have hss : s'' = s' := hs'
    subst hss
    rcases InnerAppData.start_state hc with heq | ⟨s1, hp, hcont, hrun, htr⟩
    · exact heq ▸ hm
    · refine InnerAppData.markerOk_of_contains (fun r hrr => ?_)
      rw [hrun] at hrr
      cases hrr
      rw [htr, containsKey_congr_keys (InnerAppData.pause_keys hp)]
      exact hcont
  | pause =>
    exact InnerAppData.markerOk_of_running_none (InnerAppData.pause_running h)
  | set_description key d =>
    simp only [applyOp, Option.map_eq_some'] at h
    obtain ⟨⟨res, s''⟩, hc, hs'⟩ := h
    have hss : s'' = s' := hs'
    subst hss
    rcases InnerAppData.set_description_state hc with heq | ⟨f, hr, ht⟩
    · exact heq ▸ hm
    · exact InnerAppData.markerOk_of_keys_eq hr
        (by rw [ht]; exact updateKey_keys _ _ _) hm
  | adjust_positive key d =>
    simp only [applyOp, Option.map_eq_some'] at h
    obtain ⟨⟨res, s''⟩, hc, hs'⟩ := h
    have hss : s'' = s' := hs'
    subst hss
    rcases InnerAppData.adjust_positive_state hc with heq | ⟨f, hr, ht⟩
    · exact heq ▸ hm
    · exact InnerAppData.markerOk_of_keys_eq hr
        (by rw [ht]; exact updateKey_keys _ _ _) hm
  | adjust_negative key d =>
    simp only [applyOp, Option.map_eq_some'] at h
    obtain ⟨⟨res, s''⟩, hc, hs'⟩ := h
    have hss : s'' = s' := hs'
    subst hss
    rcases InnerAppData.adjust_negative_state hc with heq | ⟨f, hr, ht⟩
    · exact heq ▸ hm
    · exact InnerAppData.markerOk_of_keys_eq hr
        (by rw [ht]; exact updateKey_keys _ _ _) hm
  | remove key =>
    simp only [applyOp, Option.map_eq_some'] at h
    obtain ⟨⟨res, s''⟩, hc, hs'⟩ := h
    have hss : s'' = s' := hs'
    subst hss
    obtain ⟨s1, hpc, hres⟩ := InnerAppData.remove_state hc
    have hm1 : markerOk s1 = true := by
      rcases hpc with ⟨-, hp⟩ | ⟨-, rfl⟩
      · exact InnerAppData.markerOk_of_running_none (InnerAppData.pause_running hp)
      · exact hm
    rcases hres with heq | ⟨t, rest, hsr, hrun, htr⟩
    · exact heq ▸ hm1
    · refine InnerAppData.markerOk_of_contains (fun r hrr => ?_)
      rw [hrun] at hrr
      rcases hpc with ⟨-, hp⟩ | ⟨hrm, rfl⟩
      · rw [InnerAppData.pause_running hp] at hrr
        cases hrr
      · have hne : r.key ≠ key := InnerAppData.runningMatches_false_elim hrm hrr
        have hcont := InnerAppData.markerOk_elim hm1 hrr
        rw [← getKey?_isSome_iff] at hcont ⊢
        rw [htr, shiftRemoveKey_getKey?_ne hne hsr]
        exact hcont
  | remove_all =>
    simp only [applyOp, Option.map_eq_some'] at h
    obtain ⟨⟨res, s''⟩, hc, hs'⟩ := h
    have hss : s'' = s' := hs'
    subst hss
    obtain ⟨s1, rest, hp, -, hrun, -⟩ := InnerAppData.remove_all_state hc
    refine InnerAppData.markerOk_of_running_none ?_
    rw [hrun]
    exact InnerAppData.pause_running hp

/-- C1: in every state reachable from the empty store by the public
operations, a present `RunningMarker` always names a key that exists in the
tracker mapping; moreover every single public operation preserves this
invariant. -/
theorem claim_C1_running_marker_invariant :
    (∀ s op now s', markerOk s = true → applyOp op s now = some s' →
      markerOk s' = true) ∧
    (∀ s, Reachable s → markerOk s = true) := by
  refine ⟨fun s op now s' hm h => applyOp_markerOk hm h, fun s h => ?_⟩
  induction h with
  | init => rfl
  | step s op now s' hre happ ih => exact applyOp_markerOk ih happ

/-- Witness for C1: the empty store satisfies the invariant, and stepping the
idle fixture by `start AB-1` preserves it. -/
theorem claim_C1_running_marker_invariant_witness :
    markerOk InnerAppData.new = true ∧
    markerOk { running := some { key := "AB-1", start_time := 5 }
               trackers := sP.trackers } = true :=
  ⟨claim_C1_running_marker_invariant.2 _ Reachable.init,
   claim_C1_running_marker_invariant.1 sP (.start "AB-1") 5 _ (by decide) (by decide)⟩

/-! ### Permutation facts about swap removal, used by `remove_all` -/

theorem swapRemoveIdx_perm : ∀ (l : List (String × PausedTracker)) (i : Nat),
    i < l.length → (swapRemoveIdx l i).Perm (l.eraseIdx i) := by
  intro l
  induction l with
  | nil => intro i h; cases h
  | cons a t ih =>
    intro i h
    cases i with
    | zero =>
      cases t with
      | nil => simp [swapRemoveIdx]
      | cons b u =>
        obtain ⟨z, hz⟩ : ∃ z, (b :: u).getLast? = some z := by
          have hs : ((b :: u).getLast?).isSome = true := List.getLast?_isSome.2 (by simp)
          cases hg : (b :: u).getLast?
          · rw [hg] at hs; cases hs
          · exact ⟨_, rfl⟩
        have hrec : (b :: u).dropLast ++ [z] = b :: u :=
          List.dropLast_append_getLast? z hz
        simp only [swapRemoveIdx, List.getLast?_cons_cons, hz, List.set_cons_zero,
          List.dropLast_cons₂, List.eraseIdx_cons_zero]
        have hper : (z :: (b :: u).dropLast).Perm ((b :: u).dropLast ++ [z]) :=
          (List.perm_append_singleton z _).symm
        rw [hrec] at hper
        exact hper
    | succ i =>
      cases t with
      | nil =>
        simp only [List.length_singleton] at h
        exact absurd h (by omega)
      | cons b u =>
        have h' : i < (b :: u).length := by
          simp only [List.length_cons] at h ⊢
          omega
        obtain ⟨z, hz⟩ : ∃ z, (b :: u).getLast? = some z := by
          have hs : ((b :: u).getLast?).isSome = true := List.getLast?_isSome.2 (by simp)
          cases hg : (b :: u).getLast?
          · rw [hg] at hs; cases hs
          · exact ⟨_, rfl⟩
        simp only [swapRemoveIdx, List.getLast?_cons_cons, hz, List.set_cons_succ]
        rw [List.dropLast_cons_of_ne_nil (by
          have : ((b :: u).set i z).length = (b :: u).length := List.length_set _ _ _
          intro hnil
          rw [hnil] at this
          simp at this)]
        rw [List.eraseIdx_cons_succ]
        refine List.Perm.cons a ?_
        have hih := ih i h'
        rw [swapRemoveIdx, hz] at hih
        exact hih

theorem perm_cons_eraseIdx {α : Type} {l : List α} {i : Nat} {e : α}
    (h : l[i]? = some e) : l.Perm (e :: l.eraseIdx i) := by
  have hsplit : l = l.take i ++ e :: l.drop (i + 1) := by
    conv_lhs => rw [← List.take_append_drop (i + 1) l]
    rw [List.take_succ, h]
    simp
  rw [List.eraseIdx_eq_take_drop_succ]
  conv_lhs => rw [hsplit]
  exact List.perm_middle

theorem swapRemoveKey_spec {l rest : List (String × PausedTracker)} {k : String}
    {v : PausedTracker} (hperm : l.Perm ((k, v) :: rest))
    (hnd : (l.map (fun p => p.1)).Nodup) :
    ∃ l2, swapRemoveKey l k = some (v, l2) ∧ l2.Perm rest := by
  have hmem : (k, v) ∈ l := hperm.symm.subset (List.mem_cons_self _ _)
  have hany : l.any (fun p => decide (p.1 = k)) = true :=
    List.any_eq_true.2 ⟨(k, v), hmem, by simp⟩
  obtain ⟨i, hi⟩ : ∃ i, l.findIdx? (fun p => decide (p.1 = k)) = some i := by
    have hs : (l.findIdx? (fun p => decide (p.1 = k))).isSome = true := by
      rw [List.findIdx?_isSome, hany]
    cases hg : l.findIdx? (fun p => decide (p.1 = k))
    · rw [hg] at hs; cases hs
    · exact ⟨_, rfl⟩
  obtain ⟨hlen, hp, -⟩ := List.findIdx?_eq_some_iff_getElem.1 hi
  have hkey : (l[i]).1 = k := of_decide_eq_true hp
  have hei : l[i] = (k, v) := by
    refine List.inj_on_of_nodup_map hnd (l.getElem_mem hlen) hmem ?_
    rw [hkey]
  have hget : l[i]? = some (k, v) := by
    rw [List.getElem?_eq_getElem hlen, hei]
  refine ⟨swapRemoveIdx l i, ?_, ?_⟩
  · simp only [swapRemoveKey, hi]
    rw [show l.get? i = some (k, v) from by rw [List.get?_eq_getElem?]; exact hget]
    rfl
  · have h1 := swapRemoveIdx_perm l i hlen
    have h2 : l.Perm ((k, v) :: l.eraseIdx i) := perm_cons_eraseIdx hget
    exact h1.trans ((h2.symm.trans hperm).cons_inv)

theorem removeEach_of_perm : ∀ (l l' : List (String × PausedTracker)),
    l'.Perm l → (l.map (fun p => p.1)).Nodup →
    InnerAppData.removeEach (l.map (fun p => p.1)) l' =
      some (l.map (fun p => p.2), []) := by
  intro l
  induction l with
  | nil =>
    intro l' hp _
    rw [hp.eq_nil]
    rfl
  | cons p rest ih =>
    intro l' hp hnd
    obtain ⟨k, v⟩ := p
    have hnd' : (l'.map (fun p => p.1)).Nodup := ((hp.map _).nodup_iff).2 hnd
    obtain ⟨l2, hsw, hperm2⟩ := swapRemoveKey_spec hp hnd'
    have hnd_rest : (rest.map (fun p => p.1)).Nodup := by
      simp only [List.map_cons, List.nodup_cons] at hnd
      exact hnd.2
    have hih := ih l2 hperm2 hnd_rest
    simp only [List.map_cons, InnerAppData.removeEach, hsw, hih, Option.map_some']

/-- C7: `remove_all` first pauses (folding live elapsed time into the running
tracker's duration), then removes every entry in current order, returning
exactly the (paused) tracker records that `list()` reported, in the same key
order; afterwards the store is empty, `list()` is empty, `current()` fails
`NotFoundError`, and the running marker is clear. -/
theorem claim_C7_remove_all (s : InnerAppData) (now t' : Nat)
    (hm : markerOk s = true) (hnd : keysNodup s) :
    ∃ s1, s.pause now = some s1 ∧
      s.remove_all now = some (s1.trackers.map (fun p => p.2),
        (⟨none, []⟩ : InnerAppData)) ∧
      s1.trackers.map (fun p => p.1) = s.trackers.map (fun p => p.1) ∧
      (∃ views, s.list_trackers now = some views ∧
        views.map (fun v => v.key) = s.trackers.map (fun p => p.1)) ∧
      InnerAppData.current ⟨none, []⟩ t' = some (.error .NotFoundError) ∧
      InnerAppData.list_trackers ⟨none, []⟩ t' = some [] := by
  obtain ⟨s1, hp⟩ : ∃ s1, s.pause now = some s1 := by
    have hs := InnerAppData.pause_isSome hm now
    cases hg : s.pause now
    · rw [hg] at hs; cases hs
    · exact ⟨_, rfl⟩
  have hkeys := InnerAppData.pause_keys hp
  have hnd1 : (s1.trackers.map (fun p => p.1)).Nodup := by
    rw [hkeys]; exact hnd
  have hre := removeEach_of_perm s1.trackers s1.trackers (List.Perm.refl _) hnd1
  have hrun1 := InnerAppData.pause_running hp
  refine ⟨s1, hp, ?_, hkeys, InnerAppData.list_trackers_spec s now, rfl, rfl⟩
  simp only [InnerAppData.remove_all, hp, hre]
  rw [hrun1]

/-- Witness for C7 at the running fixture: `remove_all` at instant 9 returns
the folded `AB-1` record followed by `CD-2`, and empties the store. -/
theorem claim_C7_remove_all_witness :
    ∃ s1, sEx.pause 9 = some s1 ∧
      sEx.remove_all 9 = some (s1.trackers.map (fun p => p.2),
        (⟨none, []⟩ : InnerAppData)) ∧
      s1.trackers.map (fun p => p.1) = sEx.trackers.map (fun p => p.1) ∧
      (∃ views, sEx.list_trackers 9 = some views ∧
        views.map (fun v => v.key) = sEx.trackers.map (fun p => p.1)) ∧
      InnerAppData.current ⟨none, []⟩ 11 = some (.error .NotFoundError) ∧
      InnerAppData.list_trackers ⟨none, []⟩ 11 = some [] :=
  claim_C7_remove_all sEx 9 11 (by decide)
    (by show (sEx.trackers.map (fun p => p.1)).Nodup; decide)

/-- Key uniqueness of the tracker map is preserved by every successful public
mutating operation. -/
theorem applyOp_keysNodup {op : Op} {s : InnerAppData} {now : Nat}
    {s' : InnerAppData} (hnd : keysNodup s) (h : applyOp op s now = some s') :
    keysNodup s' := by
  cases op with
  | create key id =>
    simp only [applyOp, Option.map_eq_some'] at h
    obtain ⟨⟨res, s''⟩, hc, hs'⟩ := h
    have hss : s'' = s' := hs'
    subst hss
    rcases InnerAppData.create_state hc with heq | ⟨hc0, hr, ht⟩
    · exact heq ▸ hnd
    · rw [keysNodup, ht, List.map_append]
      rw [List.nodup_append]
      refine ⟨hnd, List.nodup_singleton _, fun a ha hb => ?_⟩
      simp only [List.map_cons, List.map_nil, List.mem_singleton] at hb
      subst hb
      rw [← containsKey_iff_mem] at ha
      rw [ha] at hc0
      cases hc0
  | start key =>
    simp only [applyOp, Option.map_eq_some'] at h
    obtain ⟨⟨res, s''⟩, hc, hs'⟩ := h
    have hss : s'' = s' := hs'
    subst hss
    rcases InnerAppData.start_state hc with heq | ⟨s1, hp, -, -, htr⟩
    · exact heq ▸ hnd
    · rw [keysNodup, htr, InnerAppData.pause_keys hp]
      exact hnd
  | pause =>
    rw [keysNodup, InnerAppData.pause_keys h]
    exact hnd
  | set_description key d =>
    simp only [applyOp, Option.map_eq_some'] at h
    obtain ⟨⟨res, s''⟩, hc, hs'⟩ := h
    have hss : s'' = s' := hs'
    subst hss
    rcases InnerAppData.set_description_state hc with heq | ⟨f, hr, ht⟩
    · exact heq ▸ hnd
    · rw [keysNodup, ht, updateKey_keys]
      exact hnd
  | adjust_positive key d =>
    simp only [applyOp, Option.map_eq_some'] at h
    obtain ⟨⟨res, s''⟩, hc, hs'⟩ := h
    have hss : s'' = s' := hs'
    subst hss
    rcases InnerAppData.adjust_positive_state hc with heq | ⟨f, hr, ht⟩
    · exact heq ▸ hnd
    · rw [keysNodup, ht, updateKey_keys]
      exact hnd
  | adjust_negative key d =>
    simp only [applyOp, Option.map_eq_some'] at h
    obtain ⟨⟨res, s''⟩, hc, hs'⟩ := h
    have hss : s'' = s' := hs'
    subst hss
    rcases InnerAppData.adjust_negative_state hc with heq | ⟨f, hr, ht⟩
    · exact heq ▸ hnd
    · rw [keysNodup, ht, updateKey_keys]
      exact hnd
  | remove key =>
    simp only [applyOp, Option.map_eq_some'] at h
    obtain ⟨⟨res, s''⟩, hc, hs'⟩ := h
    have hss : s'' = s' := hs'
    subst hss
    obtain ⟨s1, hpc, hres⟩ := InnerAppData.remove_state hc
    have hnd1 : keysNodup s1 := by
      rcases hpc with ⟨-, hp⟩ | ⟨-, rfl⟩
      · rw [keysNodup, InnerAppData.pause_keys hp]
        exact hnd
      · exact hnd
    rcases hres with heq | ⟨t, rest, hsr, hrun, htr⟩
    · exact heq ▸ hnd1
    · rw [keysNodup, htr, shiftRemoveKey_keys hsr]
      exact hnd1.erase _
  | remove_all =>
    simp only [applyOp, Option.map_eq_some'] at h
    obtain ⟨⟨res, s''⟩, hc, hs'⟩ := h
    have hss : s'' = s' := hs'
    subst hss
    obtain ⟨s1, rest, hp, hre, -, htr⟩ := InnerAppData.remove_all_state hc
    have hnd1 : (s1.trackers.map (fun p => p.1)).Nodup := by
      rw [InnerAppData.pause_keys hp]
      exact hnd
    have hre2 := removeEach_of_perm s1.trackers s1.trackers (List.Perm.refl _) hnd1
    rw [hre] at hre2
    have hrest : rest = [] := congrArg Prod.snd (Option.some.inj hre2)
    rw [keysNodup, htr, hrest]
    exact List.nodup_nil

/-- Under the running-marker invariant and key uniqueness, no public mutating
operation panics: every internal unchecked lookup succeeds. -/
theorem applyOp_total (op : Op) (s : InnerAppData) (now : Nat)
    (hm : markerOk s = true) (hnd : keysNodup s) :
    (applyOp op s now).isSome = true := by
  cases op with
  | create key id =>
    simp only [applyOp, Option.isSome_map']
    cases hk : keyIsMatch key with
    | false => simp [InnerAppData.create_tracker, hk]
    | true =>
      cases hc : containsKey s.trackers key with
      | true => simp [InnerAppData.create_tracker, hk, hc]
      | false =>
        have hcont : containsKey (s.trackers ++ [(key, PausedTracker.new id now)])
            key = true := by
          rw [containsKey_append]
          simp [containsKey]
        have hgi := InnerAppData.get_information_isSome
          (s := { running := s.running
                  trackers := s.trackers ++ [(key, PausedTracker.new id now)] })
          hcont now
        simp only [InnerAppData.create_tracker, hk, Bool.not_true,
          Bool.false_eq_true, if_false, hc, Option.isSome_map']
        exact hgi
  | start key =>
    simp only [applyOp, Option.isSome_map']
    cases hc : containsKey s.trackers key with
    | false => simp [InnerAppData.start, hc]
    | true =>
      obtain ⟨s1, hp⟩ : ∃ s1, s.pause now = some s1 := by
        have hs := InnerAppData.pause_isSome hm now
        cases hg : s.pause now
        · rw [hg] at hs; cases hs
        · exact ⟨_, rfl⟩
      have hcont1 : containsKey s1.trackers key = true := by
        rw [containsKey_congr_keys (InnerAppData.pause_keys hp)]
        exact hc
      have hgi := InnerAppData.get_information_isSome
        (s := { s1 with running := some { key := key, start_time := now } })
        hcont1 now
      simp only [InnerAppData.start, hc, if_true, hp, Option.isSome_map']
      exact hgi
  | pause => exact InnerAppData.pause_isSome hm now
  | set_description key d =>
    simp only [applyOp, Option.isSome_map']
    cases hg : getKey? s.trackers key with
    | none => simp [InnerAppData.set_description, hg]
    | some t =>
      have hcont : containsKey (updateKey s.trackers key (fun t =>
          { t with description := d.filter (fun x => !x.isEmpty) })) key = true := by
        rw [containsKey_congr_keys (updateKey_keys _ _ _), ← getKey?_isSome_iff, hg]
        rfl
      have hgi := InnerAppData.get_information_isSome
        (s := { s with trackers := updateKey s.trackers key (fun t =>
          { t with description := d.filter (fun x => !x.isEmpty) }) }) hcont now
      simp only [InnerAppData.set_description, hg, Option.isSome_map']
      exact hgi
  | adjust_positive key d =>
    simp only [applyOp, Option.isSome_map']
    cases hg : getKey? s.trackers key with
    | none => simp [InnerAppData.adjust_positive_duration, hg]
    | some t =>
      have hcont : containsKey (updateKey s.trackers key (fun t =>
          { t with positive_adjustments := t.positive_adjustments ++ [d] }))
          key = true := by
        rw [containsKey_congr_keys (updateKey_keys _ _ _), ← getKey?_isSome_iff, hg]
        rfl
      have hgi := InnerAppData.get_information_isSome
        (s := { s with trackers := updateKey s.trackers key (fun t =>
          { t with positive_adjustments := t.positive_adjustments ++ [d] }) })
        hcont now
      simp only [InnerAppData.adjust_positive_duration, hg, Option.isSome_map']
      exact hgi
  | adjust_negative key d =>
    simp only [applyOp, Option.isSome_map']
    cases hg : getKey? s.trackers key with
    | none =>
      simp [InnerAppData.adjust_negative_duration,
        InnerAppData.elapsed_of_getKey?_none hg now]
    | some t =>
      have he := InnerAppData.elapsed_of_getKey? hg now
      by_cases hlt : d > (t.duration + runningElapsed s key now +
          t.positive_adjustments.sum - t.negative_adjustments.sum)
      · simp [InnerAppData.adjust_negative_duration, he, hlt]
      · have hcont : containsKey (updateKey s.trackers key (fun t =>
            { t with negative_adjustments := t.negative_adjustments ++ [d] }))
            key = true := by
          rw [containsKey_congr_keys (updateKey_keys _ _ _), ← getKey?_isSome_iff, hg]
          rfl
        have hgi := InnerAppData.get_information_isSome
          (s := { s with trackers := updateKey s.trackers key (fun t =>
            { t with negative_adjustments := t.negative_adjustments ++ [d] }) })
          hcont now
        simp only [InnerAppData.adjust_negative_duration, he, hlt, if_false, hg,
          Option.isSome_map']
        exact hgi
  | remove key =>
    simp only [applyOp, Option.isSome_map']
    cases hrm : InnerAppData.runningMatches s.running key with
    | false =>
      cases hsr : shiftRemoveKey s.trackers key with
      | none => simp [InnerAppData.remove, hrm, hsr]
      | some p => simp [InnerAppData.remove, hrm, hsr]
    | true =>
      obtain ⟨s1, hp⟩ : ∃ s1, s.pause now = some s1 := by
        have hs := InnerAppData.pause_isSome hm now
        cases hg : s.pause now
        · rw [hg] at hs; cases hs
        · exact ⟨_, rfl⟩
      cases hsr : shiftRemoveKey s1.trackers key with
      | none => simp [InnerAppData.remove, hrm, hp, hsr]
      | some p => simp [InnerAppData.remove, hrm, hp, hsr]
  | remove_all =>
    simp only [applyOp, Option.isSome_map']
    obtain ⟨s1, hp⟩ : ∃ s1, s.pause now = some s1 := by
      have hs := InnerAppData.pause_isSome hm now
      cases hg : s.pause now
      · rw [hg] at hs; cases hs
      · exact ⟨_, rfl⟩
    have hnd1 : (s1.trackers.map (fun p => p.1)).Nodup := by
      rw [InnerAppData.pause_keys hp]
      exact hnd
    have hre := removeEach_of_perm s1.trackers s1.trackers (List.Perm.refl _) hnd1
    simp [InnerAppData.remove_all, hp, hre]

/-- C9: in any state satisfying the running-marker invariant (together with
key uniqueness, the representation invariant every `IndexMap` provides by
construction), no public store operation panics: `pause`'s unchecked lookup
of the running key, `get_information`'s lookups, and `adjust_negative`'s
unchecked lookup after a successful elapsed computation all succeed, so every
operation returns a result or one of the domain errors (`isSome`, never the
panic value `none`). -/
theorem claim_C9_no_panics (s : InnerAppData) (hm : markerOk s = true)
    (hnd : keysNodup s) :
    (∀ op now, (applyOp op s now).isSome = true) ∧
    (∀ now key, (s.current now).isSome = true ∧
      (s.get_tracker key now).isSome = true ∧
      (s.list_trackers now).isSome = true ∧ (s.sum now).isSome = true) := by
  refine ⟨fun op now => applyOp_total op s now hm hnd,
    fun now key => ⟨?_, ?_, ?_, ?_⟩⟩
  · cases hr : s.running with
    | none => simp [InnerAppData.current, hr]
    | some r =>
      have hgi := InnerAppData.get_information_isSome
        (InnerAppData.markerOk_elim hm hr) now
      simp only [InnerAppData.current, hr, Option.isSome_map']
      exact hgi
  · cases hg : getKey? s.trackers key with
    | none => simp [InnerAppData.get_tracker, hg]
    | some t =>
      have hc : containsKey s.trackers key = true := by
        rw [← getKey?_isSome_iff, hg]
        rfl
      have hgi := InnerAppData.get_information_isSome hc now
      simp only [InnerAppData.get_tracker, hg, Option.isSome_map']
      exact hgi
  · obtain ⟨views, hv, -⟩ := InnerAppData.list_trackers_spec s now
    rw [hv]
    rfl
  · obtain ⟨views, hv, -⟩ := InnerAppData.list_trackers_spec s now
    simp [InnerAppData.sum, hv]

/-- Witness for C9 at the running fixture: pausing, removing the running key,
and querying `current` all return without the panic value. -/
theorem claim_C9_no_panics_witness :
    (applyOp .pause sEx 9).isSome = true ∧
    (applyOp (.remove "AB-1") sEx 9).isSome = true ∧
    (sEx.current 9).isSome = true := by
  have h := claim_C9_no_panics sEx (by decide)
    (by show (sEx.trackers.map (fun p => p.1)).Nodup; decide)
  exact ⟨h.1 .pause 9, h.1 (.remove "AB-1") 9, (h.2 9 "AB-1").1⟩

/-! ### Truncation arithmetic for `sum` -/

theorem secTrunc_add (a b : Nat) : secTrunc (a + b) =
    secTrunc a + secTrunc b +
      (if nanosPerSec ≤ a % nanosPerSec + b % nanosPerSec then 1 else 0) *
        nanosPerSec := by
  rw [secTrunc, secTrunc, secTrunc, Nat.add_div (by decide : 0 < nanosPerSec),
    Nat.add_mul, Nat.add_mul]

theorem sum_secTrunc_le_secTrunc_sum (l : List Nat) :
    (l.map secTrunc).sum ≤ secTrunc l.sum := by
  induction l with
  | nil => simp [secTrunc]
  | cons a t ih =>
    simp only [List.map_cons, List.sum_cons]
    calc secTrunc a + (t.map secTrunc).sum
        ≤ secTrunc a + secTrunc t.sum := Nat.add_le_add_left ih _
      _ ≤ secTrunc (a + t.sum) := by
          rw [secTrunc_add a t.sum]
          exact Nat.le_add_right _ _

theorem secTrunc_sum_le (l : List Nat) :
    secTrunc l.sum ≤ (l.map secTrunc).sum + l.length * nanosPerSec := by
  induction l with
  | nil => simp [secTrunc]
  | cons a t ih =>
    simp only [List.map_cons, List.sum_cons, List.length_cons]
    rw [secTrunc_add a t.sum, Nat.add_mul, Nat.one_mul]
    have hite : (if nanosPerSec ≤ a % nanosPerSec + t.sum % nanosPerSec
        then 1 else 0) * nanosPerSec ≤ nanosPerSec := by
      split <;> simp
    calc secTrunc a + secTrunc t.sum +
        (if nanosPerSec ≤ a % nanosPerSec + t.sum % nanosPerSec
          then 1 else 0) * nanosPerSec
        ≤ secTrunc a + ((t.map secTrunc).sum + t.length * nanosPerSec) +
            nanosPerSec :=
          Nat.add_le_add (Nat.add_le_add_left ih _) hite
      _ = secTrunc a + (t.map secTrunc).sum +
            (t.length * nanosPerSec + nanosPerSec) := by
          simp [Nat.add_assoc]

theorem list_trackers_durations (s : InnerAppData) (now : Nat) :
    ∃ views, s.list_trackers now = some views ∧
      views.map (fun v => v.duration) =
        s.trackers.map (fun p => secTrunc ((s.elapsed p.1 now).getD 0)) := by
  rw [InnerAppData.list_trackers]
  have main : ∀ l : List (String × PausedTracker),
      (∀ p ∈ l, containsKey s.trackers p.1 = true) →
      ∃ views, l.mapM (fun p => s.get_information p.1 now) = some views ∧
        views.map (fun v => v.duration) =
          l.map (fun p => secTrunc ((s.elapsed p.1 now).getD 0)) := by
    intro l
    induction l with
    | nil => exact fun _ => ⟨[], rfl, rfl⟩
    | cons p rest ih =>
      intro hmem
      obtain ⟨views, hv, hk⟩ := ih (fun q hq => hmem q (List.mem_cons_of_mem _ hq))
      have hc := hmem p (List.mem_cons_self _ _)
      rw [← getKey?_isSome_iff] at hc
      obtain ⟨t, ht⟩ : ∃ t, getKey? s.trackers p.1 = some t := by
        cases hg : getKey? s.trackers p.1
        · rw [hg] at hc; cases hc
        · exact ⟨_, rfl⟩
      have hcons : List.mapM (fun q => s.get_information q.1 now) (p :: rest) =
          some ({ key := p.1
                  id := t.id
                  description := t.description
                  duration := secTrunc (t.duration + runningElapsed s p.1 now +
                    t.positive_adjustments.sum - t.negative_adjustments.sum)
                  running := InnerAppData.runningMatches s.running p.1
                  start_time := t.start_time } :: views) := by
        rw [List.mapM_cons, InnerAppData.get_information_of_getKey? ht now, hv]
        rfl
      refine ⟨_, hcons, ?_⟩
      simp only [List.map_cons, hk, InnerAppData.elapsed_of_getKey? ht now,
        Option.getD_some]
  exact main s.trackers (fun p hp => containsKey_self_of_mem _ p hp)

/-- C10: `sum()` is the sum of the per-tracker views' durations in listing
order (live elapsed of the running tracker included), i.e. the sum of each
tracker's exact elapsed value individually truncated to whole seconds; this
per-tracker truncation means `sum()` is bounded above by the truncation of
the exact total and falls short of it by at most one second per tracker. -/
theorem claim_C10_sum_truncation (s : InnerAppData) (now : Nat) :
    ∃ views, s.list_trackers now = some views ∧
      s.sum now = some ((views.map (fun v => v.duration)).sum) ∧
      (views.map (fun v => v.duration)).sum =
        (s.trackers.map (fun p => secTrunc ((s.elapsed p.1 now).getD 0))).sum ∧
      (views.map (fun v => v.duration)).sum ≤
        secTrunc ((s.trackers.map (fun p => (s.elapsed p.1 now).getD 0)).sum) ∧
      secTrunc ((s.trackers.map (fun p => (s.elapsed p.1 now).getD 0)).sum) ≤
        (views.map (fun v => v.duration)).sum +
          s.trackers.length * nanosPerSec := by
  obtain ⟨views, hv, hd⟩ := list_trackers_durations s now
  refine ⟨views, hv, by simp [InnerAppData.sum, hv], by rw [hd], ?_, ?_⟩
  · rw [hd]
    have h1 := sum_secTrunc_le_secTrunc_sum
      (s.trackers.map (fun p => (s.elapsed p.1 now).getD 0))
    rw [List.map_map] at h1
    simpa [Function.comp] using h1
  · rw [hd]
    have h2 := secTrunc_sum_le
      (s.trackers.map (fun p => (s.elapsed p.1 now).getD 0))
    rw [List.map_map, List.length_map] at h2
    simpa [Function.comp] using h2
